import Mathlib

/-!
Shallow embedding of the `poolcache` crate (`src/lib.rs`): a hybrid
LFU/CLOCK cache and object pool.  `CacheEntry` wraps a value together with
a `u64` heat counter kept in a `Cell`; `PoolCache` composes a
`BTreeMap<Key, CacheEntry<Value>>`, a freelist `VecDeque<Value>` and a
clock `VecDeque<Key>`.

Modelling conventions:
* `u64` arithmetic is modelled on `Nat` with explicit overflow checking:
  an arithmetic operation that would leave the `u64` range yields `none`
  (Rust aborts such an operation: debug builds panic on overflow and
  underflow, and RFC 560 classifies a wrapping result as a program
  error).  Operations that cannot fail stay total.
* the `BTreeMap` is modelled as an association list with unique keys;
  its internal key ordering is never observed by the crate (the map is
  only queried pointwise), so only `DecidableEq` on keys is required.
* `VecDeque` becomes `List` with the front at the head: `pop_front`
  takes the head, `push_back` appends.
* the unbounded `loop` in `PoolCache::take` becomes the fuelled
  recursion `takeLoop`; `take` supplies the fuel `heatSum cache + 1`,
  which lemma `takeLoop_fuel_congr` shows to be saturating, so the fuel
  never cuts off a run the Rust loop would finish.  `none` from the loop
  marks a panic (a failed `unwrap` or heat underflow) or divergence.
-/

namespace PoolCacheModel

/-- Largest value representable in a Rust `u64`. -/
def u64Max : Nat := 2 ^ 64 - 1

/-- Model of `CacheEntry<Value>`: a stored value together with its heat
counter (`heat: Cell<u64>` in the source). -/
structure CacheEntry (Value : Type) where
  val : Value
  heat : Nat
deriving DecidableEq

/-- Model of `CacheEntry::new`: a fresh entry starts with heat `1`. -/
def CacheEntry.new {Value : Type} (val : Value) : CacheEntry Value :=
  ⟨val, 1⟩

/-- Model of `CacheEntry::inc`: `heat.set(min(heat.get() + 1, max_heat))`,
returning the updated entry together with the new heat.  The addition
`heat.get() + 1` is checked `u64` arithmetic: `none` models the overflow
abort when the counter already sits at `u64Max`. -/
def CacheEntry.inc {Value : Type} (e : CacheEntry Value) (max_heat : Nat) :
    Option (CacheEntry Value × Nat) :=
  if e.heat + 1 ≤ u64Max then
    let h := min (e.heat + 1) max_heat
    some (⟨e.val, h⟩, h)
  else
    none

/-- Model of `CacheEntry::dec`: `heat.set(max(heat.get() - 1, 0))`,
returning the updated entry together with the new heat.  The subtraction
`heat.get() - 1` is checked `u64` arithmetic, so it requires
`1 ≤ heat`: on an entry whose heat is already `0` the source underflows
the unsigned counter (panic in debug builds, wrap to `2 ^ 64 - 1` in
release builds, where `cmp::max(_, 0)` is the identity), modelled as
`none`. -/
def CacheEntry.dec {Value : Type} (e : CacheEntry Value) :
    Option (CacheEntry Value × Nat) :=
  if 1 ≤ e.heat then
    let h := max (e.heat - 1) 0
    some (⟨e.val, h⟩, h)
  else
    none

variable {Key Value : Type} [DecidableEq Key]

/-- Association-list model of `BTreeMap::get`. -/
def mapGet (m : List (Key × CacheEntry Value)) (k : Key) :
    Option (CacheEntry Value) :=
  match m with
  | [] => none
  | (k2, e) :: rest => if k2 = k then some e else mapGet rest k

/-- Association-list model of `BTreeMap::remove` (the removed entry, when
needed, is read off with `mapGet` first). -/
def mapRemove (m : List (Key × CacheEntry Value)) (k : Key) :
    List (Key × CacheEntry Value) :=
  m.filter (fun p => decide (p.1 ≠ k))

/-- Association-list model of `BTreeMap::insert` on a key that is absent
(the source always removes the key first). -/
def mapInsert (m : List (Key × CacheEntry Value)) (k : Key)
    (e : CacheEntry Value) : List (Key × CacheEntry Value) :=
  mapRemove m k ++ [(k, e)]

/-- In-place replacement of the entry stored at `k`, modelling a
`Cell::set` performed through a `BTreeMap::get` reference: the shape of
the map is untouched, only the entry changes. -/
def mapUpdate (m : List (Key × CacheEntry Value)) (k : Key)
    (e : CacheEntry Value) : List (Key × CacheEntry Value) :=
  match m with
  | [] => []
  | (k2, e2) :: rest =>
      if k2 = k then (k2, e) :: rest else (k2, e2) :: mapUpdate rest k e

/-- Model of `PoolCache<Key, Value>` with its four fields, in source
order. -/
structure PoolCache (Key Value : Type) where
  cache : List (Key × CacheEntry Value)
  freelist : List Value
  clock : List Key
  max_heat : Nat
deriving DecidableEq

/-- Model of `PoolCache::new`. -/
def PoolCache.new (max_heat : Nat) : PoolCache Key Value :=
  ⟨[], [], [], max_heat⟩

/-- Model of `PoolCache::contains_key`. -/
def PoolCache.contains_key (c : PoolCache Key Value) (k : Key) : Bool :=
  (mapGet c.cache k).isSome

/-- Model of `PoolCache::get`: on a hit the entry's heat is bumped in
place (through the `Cell`) and the stored value is returned.  The outer
`Option` models a panic: `none` exactly when `CacheEntry.inc` aborts. -/
def PoolCache.get (c : PoolCache Key Value) (k : Key) :
    Option (Option Value × PoolCache Key Value) :=
  match mapGet c.cache k with
  | none => some (none, c)
  | some e =>
    match e.inc c.max_heat with
    | none => none
    | some (e2, _) => some (some e.val, { c with cache := mapUpdate c.cache k e2 })

/-- Model of `PoolCache::put`: push the value on the back of the
freelist. -/
def PoolCache.put (c : PoolCache Key Value) (v : Value) : PoolCache Key Value :=
  { c with freelist := c.freelist ++ [v] }

/-- Model of `PoolCache::insert`: remove any previous entry for `key`
(pushing its value on the back of the freelist); if there was none, push
the key on the back of the clock; finally store a fresh entry at heat
`1`. -/
def PoolCache.insert (c : PoolCache Key Value) (k : Key) (v : Value) :
    PoolCache Key Value :=
  match mapGet c.cache k with
  | some old_entry =>
      { c with
        cache := mapInsert c.cache k (CacheEntry.new v),
        freelist := c.freelist ++ [old_entry.val] }
  | none =>
      { c with
        cache := mapInsert c.cache k (CacheEntry.new v),
        clock := c.clock ++ [k] }

/-- Sum of the heat counters stored in a map; the fuel measure for the
sweep loop. -/
def heatSum (m : List (Key × CacheEntry Value)) : Nat :=
  (m.map (fun p => p.2.heat)).sum

/-- Fuelled model of the `loop` in `PoolCache::take`: pop the front clock
key, decrement its entry's heat in place; at heat `0` remove the entry
and return its value, otherwise push the key on the back of the clock
and continue.  `none` models a panic (`pop_front().unwrap()` on an empty
clock, `cache.get(&key).unwrap()` on a missing key, heat underflow) or
an exhausted fuel budget. -/
def takeLoop (fuel : Nat) (cache : List (Key × CacheEntry Value))
    (clock : List Key) :
    Option (Value × List (Key × CacheEntry Value) × List Key) :=
  match fuel with
  | 0 => none
  | fuel + 1 =>
    match clock with
    | [] => none
    | key :: rest =>
      match mapGet cache key with
      | none => none
      | some e =>
        match CacheEntry.dec e with
        | none => none
        | some (e2, heat) =>
          if heat = 0 then
            some (e2.val, mapRemove cache key, rest)
          else
            takeLoop fuel (mapUpdate cache key e2) (rest ++ [key])

/-- Fuel supplied to `takeLoop` by `take`; `takeLoop_fuel_congr` shows
any budget beyond `heatSum` gives the same result. -/
def takeFuel (c : PoolCache Key Value) : Nat :=
  heatSum c.cache + 1

/-- Model of `PoolCache::take`: pop the front of the freelist if it is
non-empty; report absence if the clock is empty; otherwise run the CLOCK
sweep.  The outer `Option` models a panic inside the sweep, the inner
one the documented absence result. -/
def PoolCache.take (c : PoolCache Key Value) :
    Option (Option Value × PoolCache Key Value) :=
  match c.freelist with
  | v :: fl => some (some v, { c with freelist := fl })
  | [] =>
    match c.clock with
    | [] => some (none, c)
    | _ :: _ =>
      match takeLoop (takeFuel c) c.cache c.clock with
      | none => none
      | some (v, cache2, clock2) =>
          some (some v, { c with cache := cache2, clock := clock2 })

/-- States reachable through the public API, starting from a cache
constructed under the documented precondition `max_heat ≥ 1` (spec §4.2:
new's ceiling "must be ≥ 1").  The `get` and `take` constructors step
only through completed (non-panicking) calls. -/
inductive Reachable : PoolCache Key Value → Prop
  | new : ∀ mh, 1 ≤ mh → Reachable (PoolCache.new mh)
  | put : ∀ c v, Reachable c → Reachable (PoolCache.put c v)
  | insert : ∀ c k v, Reachable c → Reachable (PoolCache.insert c k v)
  | get : ∀ c k r c2, Reachable c → PoolCache.get c k = some (r, c2) →
      Reachable c2
  | take : ∀ c r c2, Reachable c → PoolCache.take c = some (r, c2) →
      Reachable c2

/-- The data-model invariant of spec §3: a positive heat ceiling, no
duplicate keys, the clock a permutation of the keyed entries, and every
heat in `[1, max_heat]` (heat `0` is transient inside the sweep: the
entry is removed in the same iteration). -/
def Inv (c : PoolCache Key Value) : Prop :=
  1 ≤ c.max_heat ∧
  (c.cache.map Prod.fst).Nodup ∧
  c.clock.Perm (c.cache.map Prod.fst) ∧
  ∀ p ∈ c.cache, 1 ≤ p.2.heat ∧ p.2.heat ≤ c.max_heat

/-- Heat currently recorded for key `k` (`0` for an absent key); only
used to state sweep properties. -/
def heatOf (m : List (Key × CacheEntry Value)) (k : Key) : Nat :=
  match mapGet m k with
  | some e => e.heat
  | none => 0

/-- Position of key `k` in a clock sequence (length of the list if the
key is absent); only used to state sweep properties. -/
def clockIdx : List Key → Key → Nat
  | [], _ => 0
  | a :: r, k => if a = k then 0 else clockIdx r k + 1

/-- Number of sweep iterations after which key `k` would be driven to
heat `0` by a pure rotation of the clock `l` over the map `m`: key `k`
sits at position `clockIdx l k` and is decremented once per full turn of
the `l.length` keys, so its heat reaches `0` on iteration
`(heat - 1) * l.length + clockIdx l k` (counting from `0`).  The key the
sweep evicts is exactly the key minimising this quantity: the first key,
in rotation order, whose heat reaches `0`. -/
def sweepTime (m : List (Key × CacheEntry Value)) (l : List Key) (k : Key) :
    Nat :=
  (heatOf m k - 1) * l.length + clockIdx l k

/-! Intermediate states of the round-trip scenario of spec §8, written
out explicitly so that each transition can be checked by evaluation. -/

/-- Scenario start: a fresh cache with `max_heat = 5`. -/
def scen0 : PoolCache Nat String := PoolCache.new 5

/-- Scenario state after `put("foo")`. -/
def scen1 : PoolCache Nat String := ⟨[], ["foo"], [], 5⟩

/-- Scenario state after `insert(1, "bar")`. -/
def scen2 : PoolCache Nat String := ⟨[(1, ⟨"bar", 1⟩)], [], [1], 5⟩

/-- Scenario state after the first `get(1)`. -/
def scen3 : PoolCache Nat String := ⟨[(1, ⟨"bar", 2⟩)], [], [1], 5⟩

/-- Scenario state after the second `get(1)`. -/
def scen4 : PoolCache Nat String := ⟨[(1, ⟨"bar", 3⟩)], [], [1], 5⟩

/-- Scenario state after the third `get(1)`. -/
def scen5 : PoolCache Nat String := ⟨[(1, ⟨"bar", 4⟩)], [], [1], 5⟩

/-- Scenario state after `insert(2, "baz")`. -/
def scen6 : PoolCache Nat String :=
  ⟨[(1, ⟨"bar", 4⟩), (2, ⟨"baz", 1⟩)], [], [1, 2], 5⟩

/-- Scenario state after `get(2)`. -/
def scen7 : PoolCache Nat String :=
  ⟨[(1, ⟨"bar", 4⟩), (2, ⟨"baz", 2⟩)], [], [1, 2], 5⟩

/-- Scenario state after the sweeping `take` that evicts key `2`. -/
def scen8 : PoolCache Nat String := ⟨[(1, ⟨"bar", 2⟩)], [], [1], 5⟩

/-- Scenario state after `insert(1, "newbar")` displaces `"bar"`. -/
def scen9 : PoolCache Nat String := ⟨[(1, ⟨"newbar", 1⟩)], ["bar"], [1], 5⟩

/-- Scenario state after `get(1)` on the reinserted key. -/
def scen10 : PoolCache Nat String := ⟨[(1, ⟨"newbar", 2⟩)], ["bar"], [1], 5⟩

/-- Scenario state after the freelist `take` returns `"bar"`. -/
def scen11 : PoolCache Nat String := ⟨[(1, ⟨"newbar", 2⟩)], [], [1], 5⟩

/-! Basic lemmas about the association-list map operations. -/

lemma mapGet_mem {m : List (Key × CacheEntry Value)} {k : Key}
    {e : CacheEntry Value} (h : mapGet m k = some e) : (k, e) ∈ m := by
  induction m with
  | nil => simp [mapGet] at h
  | cons p rest ih =>
      obtain ⟨k2, e2⟩ := p
      by_cases hk : k2 = k
      · subst hk
        simp [mapGet] at h
        subst h
        exact List.mem_cons_self _ _
      · simp [mapGet, hk] at h
        exact List.mem_cons_of_mem _ (ih h)

lemma mapGet_isSome_iff_mem_keys {m : List (Key × CacheEntry Value)}
    {k : Key} : (mapGet m k).isSome ↔ k ∈ m.map Prod.fst := by
  induction m with
  | nil => simp [mapGet]
  | cons p rest ih =>
      obtain ⟨k2, e2⟩ := p
      by_cases hk : k2 = k
      · subst hk
        simp [mapGet]
      · simp [mapGet, hk, ih, Ne.symm hk]

lemma mapGet_eq_none_iff {m : List (Key × CacheEntry Value)} {k : Key} :
    mapGet m k = none ↔ k ∉ m.map Prod.fst := by
  rw [← mapGet_isSome_iff_mem_keys]
  cases mapGet m k <;> simp

lemma keys_mapUpdate (m : List (Key × CacheEntry Value)) (k : Key)
    (e : CacheEntry Value) :
    (mapUpdate m k e).map Prod.fst = m.map Prod.fst := by
  induction m with
  | nil => rfl
  | cons p rest ih =>
      obtain ⟨k2, e2⟩ := p
      by_cases hk : k2 = k <;> simp [mapUpdate, hk, ih]

lemma mapGet_mapUpdate_self {m : List (Key × CacheEntry Value)} {k : Key}
    (e : CacheEntry Value) (h : (mapGet m k).isSome) :
    mapGet (mapUpdate m k e) k = some e := by
  induction m with
  | nil => simp [mapGet] at h
  | cons p rest ih =>
      obtain ⟨k2, e2⟩ := p
      by_cases hk : k2 = k
      · simp [mapUpdate, hk, mapGet]
      · simp [mapGet, hk] at h
        simp [mapUpdate, hk, mapGet, ih h]

lemma mapGet_mapUpdate_ne {m : List (Key × CacheEntry Value)} {k j : Key}
    (e : CacheEntry Value) (h : j ≠ k) :
    mapGet (mapUpdate m k e) j = mapGet m j := by
  have hkj : k ≠ j := fun hj => h hj.symm
  induction m with
  | nil => rfl
  | cons p rest ih =>
      obtain ⟨k2, e2⟩ := p
      by_cases hk : k2 = k
      · subst hk
        simp [mapUpdate, mapGet, hkj]
      · by_cases hj : k2 = j
        · subst hj
          simp [mapUpdate, hk, mapGet]
        · simp [mapUpdate, hk, mapGet, hj, ih]

lemma mem_mapUpdate {m : List (Key × CacheEntry Value)} {k : Key}
    {e : CacheEntry Value} {p : Key × CacheEntry Value}
    (h : p ∈ mapUpdate m k e) : p.2 = e ∨ p ∈ m := by
  induction m with
  | nil => simp [mapUpdate] at h
  | cons q rest ih =>
      obtain ⟨k2, e2⟩ := q
      by_cases hk : k2 = k
      · simp [mapUpdate, hk] at h
        rcases h with h | h
        · left; rw [h]
        · right; exact List.mem_cons_of_mem _ h
      · simp [mapUpdate, hk] at h
        rcases h with h | h
        · right; simp [h]
        · rcases ih h with h2 | h2
          · left; exact h2
          · right; exact List.mem_cons_of_mem _ h2

omit [DecidableEq Key] in
lemma heatSum_cons (p : Key × CacheEntry Value)
    (m : List (Key × CacheEntry Value)) :
    heatSum (p :: m) = p.2.heat + heatSum m := by
  simp [heatSum]

lemma heatSum_mapUpdate {m : List (Key × CacheEntry Value)} {k : Key}
    {e0 : CacheEntry Value} (e : CacheEntry Value)
    (h : mapGet m k = some e0) :
    heatSum (mapUpdate m k e) + e0.heat = heatSum m + e.heat := by
  induction m with
  | nil => simp [mapGet] at h
  | cons p rest ih =>
      obtain ⟨k2, e2⟩ := p
      by_cases hk : k2 = k
      · subst hk
        simp [mapGet] at h
        subst h
        simp [mapUpdate, heatSum_cons]
        omega
      · simp [mapGet, hk] at h
        have := ih h
        simp [mapUpdate, hk, heatSum_cons]
        omega

lemma mapRemove_cons_self {rest : List (Key × CacheEntry Value)} {k k2 : Key}
    (e2 : CacheEntry Value) (hk : k2 = k) :
    mapRemove ((k2, e2) :: rest) k = mapRemove rest k := by
  simp [mapRemove, List.filter_cons, hk]

lemma mapRemove_cons_ne {rest : List (Key × CacheEntry Value)} {k k2 : Key}
    (e2 : CacheEntry Value) (hk : ¬k2 = k) :
    mapRemove ((k2, e2) :: rest) k = (k2, e2) :: mapRemove rest k := by
  simp [mapRemove, List.filter_cons, hk]

lemma keys_mapRemove (m : List (Key × CacheEntry Value)) (k : Key) :
    (mapRemove m k).map Prod.fst =
      (m.map Prod.fst).filter (fun j => decide (j ≠ k)) := by
  induction m with
  | nil => rfl
  | cons p rest ih =>
      obtain ⟨k2, e2⟩ := p
      by_cases hk : k2 = k
      · rw [mapRemove_cons_self e2 hk]
        simp [List.filter_cons, hk, ih]
      · rw [mapRemove_cons_ne e2 hk]
        simp [List.filter_cons, hk, ih]

lemma mem_mapRemove {m : List (Key × CacheEntry Value)} {k : Key}
    {p : Key × CacheEntry Value} (h : p ∈ mapRemove m k) : p ∈ m :=
  List.mem_of_mem_filter h

lemma mapGet_mapRemove_self (m : List (Key × CacheEntry Value)) (k : Key) :
    mapGet (mapRemove m k) k = none := by
  induction m with
  | nil => rfl
  | cons p rest ih =>
      obtain ⟨k2, e2⟩ := p
      by_cases hk : k2 = k
      · rw [mapRemove_cons_self e2 hk]
        exact ih
      · rw [mapRemove_cons_ne e2 hk]
        simpa [mapGet, hk] using ih

lemma mapGet_mapRemove_ne {m : List (Key × CacheEntry Value)} {k j : Key}
    (h : j ≠ k) : mapGet (mapRemove m k) j = mapGet m j := by
  induction m with
  | nil => rfl
  | cons p rest ih =>
      obtain ⟨k2, e2⟩ := p
      by_cases hk : k2 = k
      · subst hk
        rw [mapRemove_cons_self e2 rfl]
        have hkj : k2 ≠ j := fun hj => h hj.symm
        simpa [mapGet, hkj] using ih
      · rw [mapRemove_cons_ne e2 hk]
        by_cases hj : k2 = j
        · subst hj
          simp [mapGet]
        · simpa [mapGet, hj] using ih

lemma mapRemove_eq_self {m : List (Key × CacheEntry Value)} {k : Key}
    (h : mapGet m k = none) : mapRemove m k = m := by
  induction m with
  | nil => rfl
  | cons p rest ih =>
      obtain ⟨k2, e2⟩ := p
      by_cases hk : k2 = k
      · simp [mapGet, hk] at h
      · simp [mapGet, hk] at h
        rw [mapRemove_cons_ne e2 hk, ih h]

lemma mapGet_append_none {m1 m2 : List (Key × CacheEntry Value)} {k : Key}
    (h : mapGet m1 k = none) : mapGet (m1 ++ m2) k = mapGet m2 k := by
  induction m1 with
  | nil => rfl
  | cons p rest ih =>
      obtain ⟨k2, e2⟩ := p
      by_cases hk : k2 = k
      · simp [mapGet, hk] at h
      · simp [mapGet, hk] at h ⊢
        exact ih h

lemma mapGet_append_some {m1 m2 : List (Key × CacheEntry Value)} {k : Key}
    {e : CacheEntry Value} (h : mapGet m1 k = some e) :
    mapGet (m1 ++ m2) k = some e := by
  induction m1 with
  | nil => simp [mapGet] at h
  | cons p rest ih =>
      obtain ⟨k2, e2⟩ := p
      by_cases hk : k2 = k
      · simp [mapGet, hk] at h ⊢
        exact h
      · simp [mapGet, hk] at h ⊢
        exact ih h

lemma mapGet_mapInsert_self (m : List (Key × CacheEntry Value)) (k : Key)
    (e : CacheEntry Value) : mapGet (mapInsert m k e) k = some e := by
  rw [mapInsert, mapGet_append_none (mapGet_mapRemove_self m k)]
  simp [mapGet]

lemma mapGet_mapInsert_ne (m : List (Key × CacheEntry Value)) {k j : Key}
    (e : CacheEntry Value) (h : j ≠ k) :
    mapGet (mapInsert m k e) j = mapGet m j := by
  rw [mapInsert]
  cases hm : mapGet (mapRemove m k) j with
  | none =>
      rw [mapGet_append_none hm]
      have : k ≠ j := fun hj => h hj.symm
      simp [mapGet, this]
      rw [← mapGet_mapRemove_ne h, hm]
  | some e2 =>
      rw [mapGet_append_some hm, ← mapGet_mapRemove_ne h, hm]

/-! Lemmas about `clockIdx`, `heatOf` and `sweepTime`. -/

lemma clockIdx_cons_ne {a k : Key} (r : List Key) (h : ¬a = k) :
    clockIdx (a :: r) k = clockIdx r k + 1 := by
  simp [clockIdx, h]

lemma clockIdx_append_left {r : List Key} {k : Key} (s : List Key)
    (h : k ∈ r) : clockIdx (r ++ s) k = clockIdx r k := by
  induction r with
  | nil => cases h
  | cons a t ih =>
      by_cases ha : a = k
      · simp [clockIdx, ha]
      · have hkt : k ∈ t := by
          rcases List.mem_cons.mp h with h1 | h1
          · exact absurd h1.symm ha
          · exact h1
        simp [clockIdx, ha, ih hkt]

lemma clockIdx_append_self {r : List Key} {k : Key} (h : k ∉ r) :
    clockIdx (r ++ [k]) k = r.length := by
  induction r with
  | nil => simp [clockIdx]
  | cons a t ih =>
      have ha : ¬a = k := by
        intro hak
        subst hak
        exact h (List.mem_cons_self a t)
      have ht : k ∉ t := fun hk => h (List.mem_cons_of_mem _ hk)
      simp [clockIdx, ha, ih ht]

lemma heatOf_eq {m : List (Key × CacheEntry Value)} {k : Key}
    {e : CacheEntry Value} (h : mapGet m k = some e) : heatOf m k = e.heat := by
  simp [heatOf, h]

lemma heatOf_pos {mh : Nat} {m : List (Key × CacheEntry Value)} {l : List Key}
    (hperm : l.Perm (m.map Prod.fst))
    (hheat : ∀ p ∈ m, 1 ≤ p.2.heat ∧ p.2.heat ≤ mh) {j : Key} (hj : j ∈ l) :
    1 ≤ heatOf m j := by
  have hkeys : j ∈ m.map Prod.fst := hperm.subset hj
  obtain ⟨e, he⟩ := Option.isSome_iff_exists.mp
    (mapGet_isSome_iff_mem_keys.mpr hkeys)
  rw [heatOf_eq he]
  exact (hheat _ (mapGet_mem he)).1

lemma perm_filter_append_of_mem {l : List Key} {k : Key} (hn : l.Nodup)
    (hm : k ∈ l) :
    l.Perm ((l.filter (fun j => decide (j ≠ k))) ++ [k]) := by
  induction l with
  | nil => cases hm
  | cons a t ih =>
      by_cases ha : a = k
      · subst ha
        have hat : a ∉ t := (List.nodup_cons.mp hn).1
        have hft : t.filter (fun j => decide (j ≠ a)) = t := by
          apply List.filter_eq_self.mpr
          intro b hb
          simp only [decide_eq_true_eq]
          intro hba
          exact hat (hba ▸ hb)
        have hcons : (a :: t).filter (fun j => decide (j ≠ a)) = t := by
          rw [List.filter_cons, if_neg (by simp), hft]
        rw [hcons]
        exact (List.perm_append_singleton a t).symm
      · have hkt : k ∈ t := by
          rcases List.mem_cons.mp hm with h1 | h1
          · exact absurd h1.symm ha
          · exact h1
        have hpt := ih (List.nodup_cons.mp hn).2 hkt
        have hcons : (a :: t).filter (fun j => decide (j ≠ k)) =
            a :: t.filter (fun j => decide (j ≠ k)) := by
          rw [List.filter_cons, if_pos (by simp [ha])]
        rw [hcons]
        exact hpt.cons a

/-- One non-evicting sweep iteration lowers every key's `sweepTime` by
exactly one: shifting every surviving key left one slot and moving the
decremented front key (still positive) to the back is one step of the
rotation that `sweepTime` counts. -/
lemma sweepTime_step {m : List (Key × CacheEntry Value)} {k0 : Key}
    {e0 : CacheEntry Value} {r : List Key} (hget : mapGet m k0 = some e0)
    (h2 : 2 ≤ e0.heat) (hk0r : k0 ∉ r) {j : Key} (hj : j ∈ k0 :: r) :
    sweepTime m (k0 :: r) j =
      sweepTime (mapUpdate m k0 ⟨e0.val, e0.heat - 1⟩) (r ++ [k0]) j + 1 := by
  have hlen : (r ++ [k0]).length = r.length + 1 := by simp
  rcases List.mem_cons.mp hj with hjk | hjr
  · have c1 : clockIdx (k0 :: r) k0 = 0 := by simp [clockIdx]
    have c2 : clockIdx (r ++ [k0]) k0 = r.length := clockIdx_append_self hk0r
    have hh1 : heatOf m k0 = e0.heat := heatOf_eq hget
    have hh2 : heatOf (mapUpdate m k0 ⟨e0.val, e0.heat - 1⟩) k0 = e0.heat - 1 :=
      heatOf_eq (mapGet_mapUpdate_self _ (by simp [hget]))
    have hs1 : sweepTime m (k0 :: r) k0 = (e0.heat - 1) * (r.length + 1) := by
      simp [sweepTime, hh1, c1]
    have hs2 : sweepTime (mapUpdate m k0 ⟨e0.val, e0.heat - 1⟩) (r ++ [k0]) k0 =
        (e0.heat - 1 - 1) * (r.length + 1) + r.length := by
      simp [sweepTime, hh2, c2, hlen]
    rw [hjk, hs1, hs2]
    obtain ⟨d, hd⟩ : ∃ d, e0.heat = d + 2 := ⟨e0.heat - 2, by omega⟩
    rw [hd]
    have e2 : d + 2 - 1 - 1 = d := by omega
    have e1 : d + 2 - 1 = d + 1 := by omega
    rw [e2, e1, add_one_mul]
    generalize d * (r.length + 1) = t
    omega
  · have hjk0 : j ≠ k0 := fun hjk => hk0r (hjk ▸ hjr)
    have hk0j : ¬k0 = j := fun hk => hjk0 hk.symm
    have hh : heatOf (mapUpdate m k0 ⟨e0.val, e0.heat - 1⟩) j = heatOf m j := by
      simp [heatOf, mapGet_mapUpdate_ne _ hjk0]
    simp only [sweepTime, hh, clockIdx_cons_ne r hk0j,
      clockIdx_append_left [k0] hjr, hlen, List.length_cons]
    generalize (heatOf m j - 1) * (r.length + 1) = t
    omega

/-! One-step unfoldings of the sweep loop and the master run lemma. -/

lemma takeLoop_succ_evict {f : Nat} {m : List (Key × CacheEntry Value)}
    {k0 : Key} {e0 : CacheEntry Value} {r : List Key}
    (hget : mapGet m k0 = some e0) (hone : e0.heat = 1) :
    takeLoop (f + 1) m (k0 :: r) = some (e0.val, mapRemove m k0, r) := by
  have hdec : CacheEntry.dec e0 = some (⟨e0.val, 0⟩, 0) := by
    simp [CacheEntry.dec, hone]
  simp [takeLoop, hget, hdec]

lemma takeLoop_succ_rotate {f : Nat} {m : List (Key × CacheEntry Value)}
    {k0 : Key} {e0 : CacheEntry Value} {r : List Key}
    (hget : mapGet m k0 = some e0) (h2 : 2 ≤ e0.heat) :
    takeLoop (f + 1) m (k0 :: r) =
      takeLoop f (mapUpdate m k0 ⟨e0.val, e0.heat - 1⟩) (r ++ [k0]) := by
  have hdec : CacheEntry.dec e0 = some (⟨e0.val, e0.heat - 1⟩, e0.heat - 1) := by
    simp [CacheEntry.dec, show 1 ≤ e0.heat from by omega, Nat.max_zero]
  have hz : ¬(e0.heat - 1 = 0) := by omega
  simp [takeLoop, hget, hdec, hz]

/-- Master lemma on the sweep: started on a map with unique keys, a clock
that enumerates exactly those keys, and all heats in `[1, mh]`, with
fuel exceeding the total heat, the loop returns the value of the key
that minimises `sweepTime` — the first key, in rotation order, whose
heat reaches `0` — removes exactly that key, and keeps the remaining
state well-formed. -/
lemma takeLoop_run {mh : Nat} :
    ∀ (fuel : Nat) (m : List (Key × CacheEntry Value)) (l : List Key),
      (m.map Prod.fst).Nodup →
      l.Perm (m.map Prod.fst) →
      (∀ p ∈ m, 1 ≤ p.2.heat ∧ p.2.heat ≤ mh) →
      heatSum m < fuel →
      l ≠ [] →
      ∃ k e m2 l2,
        takeLoop fuel m l = some (e.val, m2, l2) ∧
        mapGet m k = some e ∧ k ∈ l ∧
        m2.map Prod.fst = (m.map Prod.fst).filter (fun j => decide (j ≠ k)) ∧
        l2.Perm (m2.map Prod.fst) ∧
        (∀ p ∈ m2, 1 ≤ p.2.heat ∧ p.2.heat ≤ mh) ∧
        (∀ j ∈ l, j ≠ k → sweepTime m l k < sweepTime m l j) := by
  intro fuel
  induction fuel with
  | zero =>
      intro m l _ _ _ hfuel _
      exact absurd hfuel (by omega)
  | succ f ih =>
      intro m l hnodup hperm hheat hfuel hne
      obtain ⟨k0, r, rfl⟩ : ∃ k0 r, l = k0 :: r := by
        cases l with
        | nil => exact absurd rfl hne
        | cons a b => exact ⟨a, b, rfl⟩
      have hlnd : (k0 :: r).Nodup := hperm.symm.nodup hnodup
      have hk0r : k0 ∉ r := (List.nodup_cons.mp hlnd).1
      have hk0keys : k0 ∈ m.map Prod.fst :=
        hperm.subset (List.mem_cons_self k0 r)
      obtain ⟨e0, hget⟩ :=
        Option.isSome_iff_exists.mp (mapGet_isSome_iff_mem_keys.mpr hk0keys)
      have he0 : 1 ≤ e0.heat ∧ e0.heat ≤ mh := hheat _ (mapGet_mem hget)
      by_cases hone : e0.heat = 1
      · refine ⟨k0, e0, mapRemove m k0, r,
          takeLoop_succ_evict hget hone, hget, List.mem_cons_self _ _,
          keys_mapRemove m k0, ?_, ?_, ?_⟩
        · have hfr : r.filter (fun j => decide (j ≠ k0)) = r := by
            apply List.filter_eq_self.mpr
            intro b hb
            simp only [decide_eq_true_eq]
            intro hb0
            exact hk0r (hb0 ▸ hb)
          have hstep := hperm.filter (fun j => decide (j ≠ k0))
          have hcons : (k0 :: r).filter (fun j => decide (j ≠ k0)) =
              r.filter (fun j => decide (j ≠ k0)) := by
            rw [List.filter_cons, if_neg (by simp)]
          rw [hcons, hfr] at hstep
          rw [keys_mapRemove]
          exact hstep
        · intro p hp
          exact hheat p (mem_mapRemove hp)
        · intro j hj hjne
          have hST0 : sweepTime m (k0 :: r) k0 = 0 := by
            simp [sweepTime, heatOf_eq hget, hone, clockIdx]
          have hcne : ¬k0 = j := fun h => hjne h.symm
          have hSTj : sweepTime m (k0 :: r) j =
              (heatOf m j - 1) * (k0 :: r).length + (clockIdx r j + 1) := by
            simp [sweepTime, clockIdx_cons_ne r hcne]
          omega
      · have h2 : 2 ≤ e0.heat := by omega
        have hstep : takeLoop (f + 1) m (k0 :: r) =
            takeLoop f (mapUpdate m k0 ⟨e0.val, e0.heat - 1⟩) (r ++ [k0]) :=
          takeLoop_succ_rotate hget h2
        have hkeys1 :
            (mapUpdate m k0 ⟨e0.val, e0.heat - 1⟩).map Prod.fst =
              m.map Prod.fst := keys_mapUpdate m k0 _
        have hnodup1 :
            ((mapUpdate m k0 ⟨e0.val, e0.heat - 1⟩).map Prod.fst).Nodup := by
          rw [hkeys1]; exact hnodup
        have hperm1 : (r ++ [k0]).Perm
            ((mapUpdate m k0 ⟨e0.val, e0.heat - 1⟩).map Prod.fst) := by
          rw [hkeys1]
          exact (List.perm_append_singleton k0 r).trans hperm
        have hheat1 : ∀ p ∈ mapUpdate m k0 ⟨e0.val, e0.heat - 1⟩,
            1 ≤ p.2.heat ∧ p.2.heat ≤ mh := by
          intro p hp
          rcases mem_mapUpdate hp with hpe | hpm
          · rw [hpe]
            show 1 ≤ e0.heat - 1 ∧ e0.heat - 1 ≤ mh
            have := he0.2
            omega
          · exact hheat p hpm
        have hsum1 : heatSum (mapUpdate m k0 ⟨e0.val, e0.heat - 1⟩) < f := by
          have h : heatSum (mapUpdate m k0 ⟨e0.val, e0.heat - 1⟩) + e0.heat =
              heatSum m + (e0.heat - 1) :=
            heatSum_mapUpdate (⟨e0.val, e0.heat - 1⟩ : CacheEntry Value) hget
          omega
        have hne1 : r ++ [k0] ≠ [] := by simp
        obtain ⟨k, e, m2, l2, heq, hget1, hkl1, hkeys2, hperm2, hheat2, hmin1⟩ :=
          ih (mapUpdate m k0 ⟨e0.val, e0.heat - 1⟩) (r ++ [k0])
            hnodup1 hperm1 hheat1 hsum1 hne1
        have hkl : k ∈ k0 :: r := by
          rcases List.mem_append.mp hkl1 with h | h
          · exact List.mem_cons_of_mem _ h
          · simp at h
            rw [h]
            exact List.mem_cons_self _ _
        have hmin : ∀ j ∈ k0 :: r, j ≠ k →
            sweepTime m (k0 :: r) k < sweepTime m (k0 :: r) j := by
          intro j hj hjk
          have hstepk := sweepTime_step hget h2 hk0r hkl
          have hstepj := sweepTime_step hget h2 hk0r hj
          have hjl1 : j ∈ r ++ [k0] := by
            rcases List.mem_cons.mp hj with h | h
            · rw [h]
              exact List.mem_append_right _ (List.mem_cons_self _ _)
            · exact List.mem_append_left _ h
          have hlt := hmin1 j hjl1 hjk
          omega
        by_cases hkk0 : k = k0
        · subst hkk0
          have hup : mapGet (mapUpdate m k ⟨e0.val, e0.heat - 1⟩) k =
              some ⟨e0.val, e0.heat - 1⟩ :=
            mapGet_mapUpdate_self _ (by simp [hget])
          rw [hup] at hget1
          injection hget1 with he
          refine ⟨k, e0, m2, l2, ?_, hget, hkl, ?_, hperm2, hheat2, hmin⟩
          · rw [hstep, heq, ← he]
          · rw [hkeys2, hkeys1]
        · have hmk : mapGet m k = some e := by
            rw [← mapGet_mapUpdate_ne (⟨e0.val, e0.heat - 1⟩ : CacheEntry Value) hkk0]
            exact hget1
          refine ⟨k, e, m2, l2, by rw [hstep, heq], hmk, hkl, ?_,
            hperm2, hheat2, hmin⟩
          rw [hkeys2, hkeys1]

/-- The sweep result does not depend on the fuel once the fuel exceeds
the total heat of the map: every non-final iteration lowers the total by
exactly one, so any two sufficient budgets agree.  This justifies the
particular fuel `takeFuel` used by `take` for the unbounded source
loop. -/
lemma takeLoop_fuel_congr :
    ∀ (f1 f2 : Nat) (m : List (Key × CacheEntry Value)) (l : List Key),
      heatSum m < f1 → heatSum m < f2 →
      takeLoop f1 m l = takeLoop f2 m l := by
  intro f1
  induction f1 with
  | zero =>
      intro f2 m l h1 _
      exact absurd h1 (by omega)
  | succ f ih =>
      intro f2 m l h1 h2
      obtain ⟨g, rfl⟩ : ∃ g, f2 = g + 1 := ⟨f2 - 1, by omega⟩
      cases l with
      | nil => simp [takeLoop]
      | cons k0 r =>
          cases hget : mapGet m k0 with
          | none => simp [takeLoop, hget]
          | some e0 =>
              by_cases hpos : 1 ≤ e0.heat
              · by_cases hone : e0.heat = 1
                · rw [takeLoop_succ_evict hget hone,
                    takeLoop_succ_evict hget hone]
                · have hh2 : 2 ≤ e0.heat := by omega
                  rw [takeLoop_succ_rotate hget hh2,
                    takeLoop_succ_rotate hget hh2]
                  have hsum : heatSum (mapUpdate m k0 ⟨e0.val, e0.heat - 1⟩) +
                      e0.heat = heatSum m + (e0.heat - 1) :=
                    heatSum_mapUpdate (⟨e0.val, e0.heat - 1⟩ : CacheEntry Value)
                      hget
                  exact ih g _ _ (by omega) (by omega)
              · have hdec : CacheEntry.dec e0 = none := by
                  simp [CacheEntry.dec, hpos]
                simp [takeLoop, hget, hdec]

/-! Preservation of the invariant `Inv` by each public operation, and
the reachability theorem. -/

omit [DecidableEq Key] in
lemma inv_new {mh : Nat} (h : 1 ≤ mh) :
    Inv (PoolCache.new mh : PoolCache Key Value) := by
  refine ⟨h, by simp [PoolCache.new], by simp [PoolCache.new], ?_⟩
  intro p hp
  simp [PoolCache.new] at hp

omit [DecidableEq Key] in
lemma inv_put {c : PoolCache Key Value} (v : Value) (h : Inv c) :
    Inv (c.put v) := by
  obtain ⟨h1, h2, h3, h4⟩ := h
  exact ⟨h1, h2, h3, h4⟩

lemma inv_insert {c : PoolCache Key Value} (k : Key) (v : Value)
    (h : Inv c) : Inv (c.insert k v) := by
  obtain ⟨hmh, hnd, hperm, hheat⟩ := h
  have hheatIns : ∀ p ∈ mapInsert c.cache k (CacheEntry.new v),
      1 ≤ p.2.heat ∧ p.2.heat ≤ c.max_heat := by
    intro p hp
    rcases List.mem_append.mp hp with hp1 | hp1
    · exact hheat p (mem_mapRemove hp1)
    · have hpk : p = (k, CacheEntry.new v) := by simpa using hp1
      rw [hpk]
      exact ⟨le_refl 1, hmh⟩
  have hkeysIns : (mapInsert c.cache k (CacheEntry.new v)).map Prod.fst =
      ((c.cache.map Prod.fst).filter (fun j => decide (j ≠ k))) ++ [k] := by
    rw [mapInsert, List.map_append, keys_mapRemove]
    rfl
  have hndIns : ((mapInsert c.cache k (CacheEntry.new v)).map Prod.fst).Nodup := by
    rw [hkeysIns]
    have hndf : ((c.cache.map Prod.fst).filter
        (fun j => decide (j ≠ k))).Nodup := hnd.filter _
    have hknf : k ∉ (c.cache.map Prod.fst).filter
        (fun j => decide (j ≠ k)) := by
      intro hk
      have := (List.mem_filter.mp hk).2
      simp at this
    refine List.Nodup.append hndf (List.nodup_singleton k) ?_
    intro a ha hak
    rw [List.mem_singleton.mp hak] at ha
    exact hknf ha
  cases hm : mapGet c.cache k with
  | some old0 =>
      have hieq : c.insert k v =
          { c with cache := mapInsert c.cache k (CacheEntry.new v),
                   freelist := c.freelist ++ [old0.val] } := by
        simp [PoolCache.insert, hm]
      rw [hieq]
      have hkmem : k ∈ c.cache.map Prod.fst :=
        mapGet_isSome_iff_mem_keys.mp (by simp [hm])
      refine ⟨hmh, hndIns, ?_, hheatIns⟩
      show c.clock.Perm ((mapInsert c.cache k (CacheEntry.new v)).map Prod.fst)
      rw [hkeysIns]
      exact hperm.trans (perm_filter_append_of_mem hnd hkmem)
  | none =>
      have hieq : c.insert k v =
          { c with cache := mapInsert c.cache k (CacheEntry.new v),
                   clock := c.clock ++ [k] } := by
        simp [PoolCache.insert, hm]
      rw [hieq]
      have hrm : mapRemove c.cache k = c.cache := mapRemove_eq_self hm
      refine ⟨hmh, hndIns, ?_, hheatIns⟩
      show (c.clock ++ [k]).Perm
        ((mapInsert c.cache k (CacheEntry.new v)).map Prod.fst)
      have hkeysIns2 : (mapInsert c.cache k (CacheEntry.new v)).map Prod.fst =
          c.cache.map Prod.fst ++ [k] := by
        rw [mapInsert, hrm, List.map_append]
        rfl
      rw [hkeysIns2]
      exact hperm.append_right [k]

lemma inv_get {c : PoolCache Key Value} {k : Key} {r : Option Value}
    {c2 : PoolCache Key Value} (hg : c.get k = some (r, c2)) (h : Inv c) :
    Inv c2 := by
  obtain ⟨hmh, hnd, hperm, hheat⟩ := h
  cases hm : mapGet c.cache k with
  | none =>
      have hgeq : c.get k = some (none, c) := by
        simp [PoolCache.get, hm]
      rw [hgeq] at hg
      injection hg with hg2
      injection hg2 with hg3 hg4
      rw [← hg4]
      exact ⟨hmh, hnd, hperm, hheat⟩
  | some e =>
      by_cases hof : e.heat + 1 ≤ u64Max
      · have hgeq : c.get k = some (some e.val,
            { c with cache :=
                mapUpdate c.cache k ⟨e.val, min (e.heat + 1) c.max_heat⟩ }) := by
          simp [PoolCache.get, hm, CacheEntry.inc, hof]
        rw [hgeq] at hg
        injection hg with hg2
        injection hg2 with hg3 hg4
        rw [← hg4]
        refine ⟨hmh, ?_, ?_, ?_⟩
        · show ((mapUpdate c.cache k
              ⟨e.val, min (e.heat + 1) c.max_heat⟩).map Prod.fst).Nodup
          rw [keys_mapUpdate]
          exact hnd
        · show c.clock.Perm ((mapUpdate c.cache k
              ⟨e.val, min (e.heat + 1) c.max_heat⟩).map Prod.fst)
          rw [keys_mapUpdate]
          exact hperm
        · intro p hp
          rcases mem_mapUpdate hp with hpe | hpm
          · rw [hpe]
            show 1 ≤ min (e.heat + 1) c.max_heat ∧
              min (e.heat + 1) c.max_heat ≤ c.max_heat
            have h1 := Nat.min_le_right (e.heat + 1) c.max_heat
            have h2 := Nat.le_min.mpr
              (⟨by omega, hmh⟩ : 1 ≤ e.heat + 1 ∧ 1 ≤ c.max_heat)
            exact ⟨h2, h1⟩
          · exact hheat p hpm
      · have hgeq : c.get k = none := by
          simp [PoolCache.get, hm, CacheEntry.inc, hof]
        rw [hgeq] at hg
        cases hg

lemma inv_take {c : PoolCache Key Value} {r : Option Value}
    {c2 : PoolCache Key Value} (ht : c.take = some (r, c2)) (h : Inv c) :
    Inv c2 := by
  obtain ⟨hmh, hnd, hperm, hheat⟩ := h
  cases hfl : c.freelist with
  | cons v fl =>
      have hteq : c.take = some (some v, { c with freelist := fl }) := by
        simp [PoolCache.take, hfl]
      rw [hteq] at ht
      injection ht with ht2
      injection ht2 with ht3 ht4
      rw [← ht4]
      exact ⟨hmh, hnd, hperm, hheat⟩
  | nil =>
      cases hcl : c.clock with
      | nil =>
          have hteq : c.take = some (none, c) := by
            simp [PoolCache.take, hfl, hcl]
          rw [hteq] at ht
          injection ht with ht2
          injection ht2 with ht3 ht4
          rw [← ht4]
          exact ⟨hmh, hnd, hperm, hheat⟩
      | cons k0 r0 =>
          obtain ⟨k, e, m2, l2, heq, hget, hkl, hkeys2, hperm2, hheat2, hmin⟩ :=
            takeLoop_run (takeFuel c) c.cache c.clock
              hnd hperm hheat (by simp [takeFuel]) (by simp [hcl])
          have hteq : c.take = some (some e.val,
              { c with cache := m2, clock := l2 }) := by
            simp [PoolCache.take, hfl, hcl]
            rw [← hcl, heq]
          rw [hteq] at ht
          injection ht with ht2
          injection ht2 with ht3 ht4
          rw [← ht4]
          refine ⟨hmh, ?_, hperm2, hheat2⟩
          show (m2.map Prod.fst).Nodup
          rw [hkeys2]
          exact hnd.filter _

/-- Every reachable cache state satisfies the data-model invariant. -/
lemma reachable_inv {c : PoolCache Key Value} (h : Reachable c) : Inv c := by
  induction h with
  | new mh hmh => exact inv_new hmh
  | put c v _ ih => exact inv_put v ih
  | insert c k v _ ih => exact inv_insert k v ih
  | get c k r c2 _ hg ih => exact inv_get hg ih
  | take c r c2 _ ht ih => exact inv_take ht ih

/-- On every invariant-respecting state, `take` completes: it never
panics and never exhausts its fuel. -/
lemma take_total {c : PoolCache Key Value} (h : Inv c) :
    ∃ r c2, c.take = some (r, c2) := by
  obtain ⟨hmh, hnd, hperm, hheat⟩ := h
  cases hfl : c.freelist with
  | cons v fl =>
      exact ⟨some v, { c with freelist := fl }, by simp [PoolCache.take, hfl]⟩
  | nil =>
      cases hcl : c.clock with
      | nil => exact ⟨none, c, by simp [PoolCache.take, hfl, hcl]⟩
      | cons k0 r0 =>
          obtain ⟨k, e, m2, l2, heq, _, _, _, _, _, _⟩ :=
            takeLoop_run (takeFuel c) c.cache c.clock
              hnd hperm hheat (by simp [takeFuel]) (by simp [hcl])
          refine ⟨some e.val, { c with cache := m2, clock := l2 }, ?_⟩
          simp [PoolCache.take, hfl, hcl]
          rw [← hcl, heq]

omit [DecidableEq Key] in
lemma sum_le_length_mul (n : Nat) :
    ∀ (l : List Nat), (∀ x ∈ l, x ≤ n) → l.sum ≤ l.length * n := by
  intro l
  induction l with
  | nil => intro _; simp
  | cons a t ih =>
      intro h
      have ha := h a (List.mem_cons_self a t)
      have ht := ih (fun x hx => h x (List.mem_cons_of_mem _ hx))
      have hmul : (t.length + 1) * n = t.length * n + n := add_one_mul t.length n
      simp only [List.sum_cons, List.length_cons]
      omega

omit [DecidableEq Key] in
/-- The total heat is bounded by `max_heat` per clock key: at most
`max_heat` decrements per key drive some heat to zero. -/
lemma heatSum_le_clock {c : PoolCache Key Value} (h : Inv c) :
    heatSum c.cache ≤ c.clock.length * c.max_heat := by
  obtain ⟨hmh, hnd, hperm, hheat⟩ := h
  have hlen : c.clock.length = c.cache.length := by
    rw [hperm.length_eq, List.length_map]
  have hmap : (c.cache.map (fun p => p.2.heat)).length = c.cache.length :=
    List.length_map _ _
  have hsum := sum_le_length_mul c.max_heat (c.cache.map (fun p => p.2.heat)) ?_
  · rw [heatSum, hlen, ← hmap]
    exact hsum
  · intro x hx
    obtain ⟨p, hp, rfl⟩ := List.mem_map.mp hx
    exact (hheat p hp).2

/-! Claim C1 — `CacheEntry::dec` at heat `0`.  The source computes
`self.heat.get() - 1` on a `u64` before clamping, so on an entry whose
heat is already `0` it underflows the counter (debug builds panic,
release builds wrap to `2 ^ 64 - 1`, on which `cmp::max(_, 0)` is the
identity); the claimed saturating result `max(heat - 1, 0) = 0` is never
produced.  For every positive heat the operation does behave as
claimed. -/

/-- C1: the claim fails on the code.  On an entry with heat `0` the
checked-`u64` model of `CacheEntry::dec` aborts (`none`) instead of
returning the claimed saturated heat `0`, while on every entry with
positive heat it returns `heat - 1` as claimed. -/
theorem dec_underflows_at_zero :
    CacheEntry.dec (⟨(), 0⟩ : CacheEntry Unit) = none ∧
    ∀ (Value : Type) (v : Value) (n : Nat),
      CacheEntry.dec ⟨v, n + 1⟩ = some (⟨v, n⟩, n) := by
  refine ⟨rfl, fun Value v n => ?_⟩
  simp [CacheEntry.dec]

/-! Claim C9 — the round-trip scenario of spec §8, executed step by step
on the model with `max_heat = 5`. -/

/-- C9: the concrete operation sequence of spec §8 produces exactly the
stated results; every transition below is checked by evaluation of the
model, including the two CLOCK sweeps (the first evicts key `2` after
four iterations, the second evicts key `1` after two). -/
theorem scenario_roundtrip :
    scen0.take = some (none, scen0) ∧
    scen0.put "foo" = scen1 ∧
    scen1.take = some (some "foo", scen0) ∧
    scen0.take = some (none, scen0) ∧
    scen0.insert 1 "bar" = scen2 ∧
    scen2.get 1 = some (some "bar", scen3) ∧
    scen3.get 1 = some (some "bar", scen4) ∧
    scen4.get 1 = some (some "bar", scen5) ∧
    scen5.insert 2 "baz" = scen6 ∧
    scen6.get 2 = some (some "baz", scen7) ∧
    scen7.take = some (some "baz", scen8) ∧
    scen8.get 2 = some (none, scen8) ∧
    scen8.contains_key 1 = true ∧
    scen8.insert 1 "newbar" = scen9 ∧
    scen9.get 1 = some (some "newbar", scen10) ∧
    scen10.take = some (some "bar", scen11) ∧
    scen11.take = some (some "newbar", scen0) ∧
    scen0.take = some (none, scen0) :=
  ⟨rfl, rfl, rfl, rfl, rfl, rfl, rfl, rfl, rfl, rfl, rfl, rfl, rfl, rfl,
   rfl, rfl, rfl, rfl⟩

/-! Claim C3 — the freelist-first path of `take`. -/

/-- C3: with a non-empty freelist, `take` pops and returns the front
(oldest) value and leaves the keyed cache — entries, clock and
`max_heat` — untouched; in particular, on a cache with an empty
freelist, a value added via `put` is returned by the very next `take`,
restoring the original state. -/
theorem take_freelist_first (c : PoolCache Key Value) (v : Value)
    (fl : List Value) (h : c.freelist = v :: fl) :
    c.take = some (some v, ⟨c.cache, fl, c.clock, c.max_heat⟩) ∧
    ∀ (d : PoolCache Key Value) (w : Value), d.freelist = [] →
      (d.put w).take = some (some w, d) := by
  constructor
  · obtain ⟨cc, cf, cl, mh⟩ := c
    simp only at h
    subst h
    rfl
  · intro d w hd
    obtain ⟨dc, df, dl, mh⟩ := d
    simp only at hd
    subst hd
    rfl

/-- Witness for C3 at a concrete cache holding the freelist `["a"]`. -/
theorem take_freelist_first_witness :
    (⟨[], ["a"], [], 1⟩ : PoolCache Nat String).take =
      some (some "a", (⟨[], [], [], 1⟩ : PoolCache Nat String)) :=
  (take_freelist_first ⟨[], ["a"], [], 1⟩ "a" [] rfl).1

/-! Claim C8 — `insert` always succeeds, displacing any old value to the
back of the freelist. -/

/-- C8: `insert key value` always stores a fresh entry `⟨value, 1⟩` for
`key` and leaves every other key's entry alone; if `key` was present its
old value is appended to the back of the freelist and the clock — hence
the key's sweep position — is unchanged, and if `key` was new the
freelist is unchanged and `key` is appended to the end of the clock. -/
theorem insert_spec (c : PoolCache Key Value) (k : Key) (v : Value) :
    (c.insert k v).max_heat = c.max_heat ∧
    mapGet (c.insert k v).cache k = some (CacheEntry.new v) ∧
    (∀ j, j ≠ k → mapGet (c.insert k v).cache j = mapGet c.cache j) ∧
    (∀ old, mapGet c.cache k = some old →
      (c.insert k v).freelist = c.freelist ++ [old.val] ∧
      (c.insert k v).clock = c.clock) ∧
    (mapGet c.cache k = none →
      (c.insert k v).freelist = c.freelist ∧
      (c.insert k v).clock = c.clock ++ [k]) := by
  cases hm : mapGet c.cache k with
  | none =>
      refine ⟨by simp [PoolCache.insert, hm], ?_, ?_, ?_, ?_⟩
      · simp [PoolCache.insert, hm, mapGet_mapInsert_self]
      · intro j hj
        simp [PoolCache.insert, hm, mapGet_mapInsert_ne _ _ hj]
      · intro old hold
        simp at hold
      · intro _
        exact ⟨by simp [PoolCache.insert, hm], by simp [PoolCache.insert, hm]⟩
  | some old0 =>
      refine ⟨by simp [PoolCache.insert, hm], ?_, ?_, ?_, ?_⟩
      · simp [PoolCache.insert, hm, mapGet_mapInsert_self]
      · intro j hj
        simp [PoolCache.insert, hm, mapGet_mapInsert_ne _ _ hj]
      · intro old hold
        injection hold with hold2
        subst hold2
        exact ⟨by simp [PoolCache.insert, hm], by simp [PoolCache.insert, hm]⟩
      · intro hnone
        simp at hnone

/-- Witness for C8, applying `insert_spec` on a concrete cache twice:
once on a key that is new and once on a key that is present. -/
theorem insert_spec_witness :
    mapGet ((scen0.insert 1 "bar").cache) 1 = some (CacheEntry.new "bar") ∧
    (scen0.insert 1 "bar").clock = scen0.clock ++ [1] ∧
    (scen2.insert 1 "newbar").freelist = scen2.freelist ++ ["bar"] ∧
    (scen2.insert 1 "newbar").clock = scen2.clock :=
  ⟨(insert_spec scen0 1 "bar").2.1,
   ((insert_spec scen0 1 "bar").2.2.2.2 rfl).2,
   ((insert_spec scen2 1 "newbar").2.2.2.1 ⟨"bar", 1⟩ rfl).1,
   ((insert_spec scen2 1 "newbar").2.2.2.1 ⟨"bar", 1⟩ rfl).2⟩

/-! Claim C2 — the CLOCK sweep of `take` and which key it evicts. -/

/-- C2: with an empty freelist and a non-empty clock, `take` runs the
sweep (pop front key, decrement, evict at heat `0`, otherwise push back
and repeat) and returns the value of a key `k` of the cache that is
removed from the mapping; `k` is exactly the first key, in rotation
order, whose heat reaches `0`: its `sweepTime` — the iteration at which
the rotation drives its heat to `0` — is strictly smaller than that of
every other clock key. -/
theorem take_sweep_first_zero (c : PoolCache Key Value) (hr : Reachable c)
    (hfl : c.freelist = []) (hcl : c.clock ≠ []) :
    ∃ k e c2, mapGet c.cache k = some e ∧ k ∈ c.clock ∧
      c.take = some (some e.val, c2) ∧
      mapGet c2.cache k = none ∧
      c2.freelist = [] ∧
      (∀ j ∈ c.clock, j ≠ k →
        sweepTime c.cache c.clock k < sweepTime c.cache c.clock j) := by
  obtain ⟨hmh, hnd, hperm, hheat⟩ := reachable_inv hr
  obtain ⟨k0, r0, hcl2⟩ : ∃ k0 r0, c.clock = k0 :: r0 := by
    cases hclk : c.clock with
    | nil => exact absurd hclk hcl
    | cons a b => exact ⟨a, b, rfl⟩
  obtain ⟨k, e, m2, l2, heq, hget, hkl, hkeys2, hperm2, hheat2, hmin⟩ :=
    takeLoop_run (takeFuel c) c.cache c.clock hnd hperm
      hheat (by simp [takeFuel]) hcl
  have hteq : c.take = some (some e.val, { c with cache := m2, clock := l2 }) := by
    simp [PoolCache.take, hfl, hcl2]
    rw [← hcl2, heq]
  refine ⟨k, e, { c with cache := m2, clock := l2 }, hget, hkl, hteq, ?_, hfl,
    hmin⟩
  show mapGet m2 k = none
  rw [mapGet_eq_none_iff, hkeys2]
  intro hk
  have := (List.mem_filter.mp hk).2
  simp at this

/-- Witness for C2 on the reachable state holding only key `1`. -/
theorem take_sweep_first_zero_witness :
    ∃ k e c2, mapGet scen2.cache k = some e ∧ k ∈ scen2.clock ∧
      scen2.take = some (some e.val, c2) ∧
      mapGet c2.cache k = none ∧
      c2.freelist = [] ∧
      (∀ j ∈ scen2.clock, j ≠ k →
        sweepTime scen2.cache scen2.clock k <
          sweepTime scen2.cache scen2.clock j) :=
  take_sweep_first_zero scen2
    (Reachable.insert _ 1 "bar" (Reachable.new 5 (by omega)))
    rfl (by simp [scen2])

/-! Claim C4 — `take` returns nothing exactly on the empty cache. -/

/-- C4: `take` yields the absence result precisely when freelist and
entries are both empty, and in that case it leaves the state unchanged,
so repeated calls keep returning nothing. -/
theorem take_nothing_iff (c : PoolCache Key Value) (hr : Reachable c) :
    ((∃ c2, c.take = some (none, c2)) ↔ (c.freelist = [] ∧ c.cache = [])) ∧
    (c.freelist = [] → c.cache = [] → c.take = some (none, c)) := by
  obtain ⟨hmh, hnd, hperm, hheat⟩ := reachable_inv hr
  have hpart2 : c.freelist = [] → c.cache = [] → c.take = some (none, c) := by
    intro hfl hcc
    have hcl : c.clock = [] := by
      have hp2 : c.clock.Perm [] := by
        rw [hcc] at hperm
        simpa using hperm
      exact hp2.eq_nil
    simp [PoolCache.take, hfl, hcl]
  refine ⟨⟨?_, ?_⟩, hpart2⟩
  · rintro ⟨c2, ht⟩
    cases hfl : c.freelist with
    | cons v fl =>
        have hteq : c.take = some (some v, { c with freelist := fl }) := by
          simp [PoolCache.take, hfl]
        rw [hteq] at ht
        injection ht with ht2
        injection ht2 with ht3 ht4
        simp at ht3
    | nil =>
        cases hcl : c.clock with
        | nil =>
            refine ⟨rfl, ?_⟩
            have hkeys : c.cache.map Prod.fst = [] := by
              rw [hcl] at hperm
              exact (hperm.symm.eq_nil)
            exact List.map_eq_nil_iff.mp hkeys
        | cons k0 r0 =>
            obtain ⟨k, e, m2, l2, heq, _, _, _, _, _, _⟩ :=
              takeLoop_run (takeFuel c) c.cache c.clock
                hnd hperm hheat (by simp [takeFuel]) (by simp [hcl])
            have hteq : c.take =
                some (some e.val, { c with cache := m2, clock := l2 }) := by
              simp [PoolCache.take, hfl, hcl]
              rw [← hcl, heq]
            rw [hteq] at ht
            injection ht with ht2
            injection ht2 with ht3 ht4
            simp at ht3
  · rintro ⟨hfl, hcc⟩
    exact ⟨c, hpart2 hfl hcc⟩

/-- Witness for C4 on the fresh empty cache. -/
theorem take_nothing_iff_witness :
    scen0.take = some (none, scen0) :=
  (take_nothing_iff scen0 (Reachable.new 5 (by omega))).2 rfl rfl

/-! Claim C5 — termination of `take`. -/

/-- C5: on every reachable state `take` completes (the sweep never
panics or diverges); the total heat — hence the number of sweep
iterations — is at most `max_heat` per clock key, and a fuel budget of
`clock.length * max_heat + 1` already yields the very same sweep result
as the budget `take` uses. -/
theorem take_terminates (c : PoolCache Key Value) (hr : Reachable c) :
    (∃ r c2, c.take = some (r, c2)) ∧
    heatSum c.cache ≤ c.clock.length * c.max_heat ∧
    takeLoop (c.clock.length * c.max_heat + 1) c.cache c.clock =
      takeLoop (takeFuel c) c.cache c.clock := by
  have hInv := reachable_inv hr
  have hb := heatSum_le_clock hInv
  exact ⟨take_total hInv, hb,
    takeLoop_fuel_congr _ _ _ _ (by omega) (by simp [takeFuel])⟩

/-- Witness for C5 on the reachable state holding only key `1`. -/
theorem take_terminates_witness :
    (∃ r c2, scen2.take = some (r, c2)) ∧
    heatSum scen2.cache ≤ scen2.clock.length * scen2.max_heat ∧
    takeLoop (scen2.clock.length * scen2.max_heat + 1) scen2.cache
        scen2.clock =
      takeLoop (takeFuel scen2) scen2.cache scen2.clock :=
  take_terminates scen2
    (Reachable.insert _ 1 "bar" (Reachable.new 5 (by omega)))

/-! Claim C6 — the clock sequence mirrors the key set. -/

/-- C6: on every reachable state the clock sequence contains exactly the
keys present in the entries mapping, each exactly once. -/
theorem clock_matches_entries (c : PoolCache Key Value) (hr : Reachable c) :
    (∀ k, k ∈ c.clock ↔ (mapGet c.cache k).isSome) ∧ c.clock.Nodup := by
  obtain ⟨hmh, hnd, hperm, hheat⟩ := reachable_inv hr
  refine ⟨?_, hperm.symm.nodup hnd⟩
  intro k
  rw [mapGet_isSome_iff_mem_keys]
  exact hperm.mem_iff

/-- Witness for C6 on the reachable state holding only key `1`. -/
theorem clock_matches_entries_witness :
    (1 ∈ scen2.clock ↔ (mapGet scen2.cache 1).isSome) ∧ scen2.clock.Nodup :=
  ⟨(clock_matches_entries scen2
      (Reachable.insert _ 1 "bar" (Reachable.new 5 (by omega)))).1 1,
   (clock_matches_entries scen2
      (Reachable.insert _ 1 "bar" (Reachable.new 5 (by omega)))).2⟩

/-! Claim C7 — heat bounds. -/

/-- C7: on every reachable state every entry's heat lies in
`[0, max_heat]`, and a newly created entry starts at heat `1` (so
repeated `get` calls saturate at `max_heat`). -/
theorem heat_bounds (c : PoolCache Key Value) (hr : Reachable c) :
    (∀ p ∈ c.cache, 0 ≤ p.2.heat ∧ p.2.heat ≤ c.max_heat) ∧
    ∀ (v : Value), (CacheEntry.new v).heat = 1 := by
  obtain ⟨hmh, hnd, hperm, hheat⟩ := reachable_inv hr
  exact ⟨fun p hp => ⟨Nat.zero_le _, (hheat p hp).2⟩, fun v => rfl⟩

/-- Witness for C7 on the reachable state holding only key `1`. -/
theorem heat_bounds_witness :
    (0 ≤ (CacheEntry.new "bar").heat ∧
      (CacheEntry.new "bar").heat ≤ scen2.max_heat) ∧
    (CacheEntry.new "x" : CacheEntry String).heat = 1 :=
  ⟨(heat_bounds scen2
      (Reachable.insert _ 1 "bar" (Reachable.new 5 (by omega)))).1
      (1, CacheEntry.new "bar") (by simp [scen2, CacheEntry.new]),
   (heat_bounds scen2
      (Reachable.insert _ 1 "bar" (Reachable.new 5 (by omega)))).2 "x"⟩

/-! Claim C10 — strict heat positivity of stored entries. -/

/-- C10: on every reachable state (built with `max_heat ≥ 1`) every
stored entry has heat at least `1`, and `take` never hits the panic
marker — in particular the decrement inside the sweep is never applied
to an entry whose heat is already `0`. -/
theorem heat_positive (c : PoolCache Key Value) (hr : Reachable c) :
    (∀ p ∈ c.cache, 1 ≤ p.2.heat) ∧ c.take ≠ none := by
  have hInv := reachable_inv hr
  obtain ⟨r, c2, ht⟩ := take_total hInv
  exact ⟨fun p hp => (hInv.2.2.2 p hp).1, by rw [ht]; simp⟩

/-- Witness for C10 on the reachable state holding only key `1`. -/
theorem heat_positive_witness :
    1 ≤ (CacheEntry.new "bar").heat ∧ scen2.take ≠ none :=
  ⟨(heat_positive scen2
      (Reachable.insert _ 1 "bar" (Reachable.new 5 (by omega)))).1
      (1, CacheEntry.new "bar") (by simp [scen2, CacheEntry.new]),
   (heat_positive scen2
      (Reachable.insert _ 1 "bar" (Reachable.new 5 (by omega)))).2⟩

end PoolCacheModel
